import Mathlib

/-!
Verification of the transitive conversion generator of the
generic_transitive_from crate (src/lib.rs).

The crate exports one macro, impl_from, together with two internal
helper macros, __impl_from_internals_recursive and
__impl_from_internals_make_impl.  Given a binding set (a token list of
generics and lifetimes) and a nested tree description of types, the
macros expand to a sequence of generated implementations, each of the
shape

  impl<generics> From<grandchild> for root {
    fn from(g: grandchild) -> Self { root::from(child::from(g)) }
  }

We embed the expansion shallowly: a Tree models one node of the parsed
hierarchy description (a node with an empty child list behaves exactly
like a node written without a block, as both expand to nothing), and
the three macros become functions from a forest to the list of emitted
artifacts, in emission order.  An Impl records one generated
implementation: the binding set it carries, the target type (ancestor),
the type whose conversion is invoked first in the body (intermediate),
and the source type (descendant).

The semantics of the generated bodies is modelled by an environment
mapping an ordered pair of type labels to a conversion function on a
common carrier V; folding the emitted artifacts over an environment
that interprets the caller-supplied direct edges installs, for each
artifact, the composed function
  env ancestor intermediate ∘ env intermediate descendant
captured at its position in the emission order, mirroring that each
generated body invokes the two conversions available at that point.
-/

namespace GTF

/-- One node of the parsed hierarchy description: a type label and the
list of child subtrees, in declaration order. -/
inductive Tree (α : Type) : Type where
  | node : α → List (Tree α) → Tree α

/-- Label of the root of a subtree. -/
def Tree.label {α : Type} : Tree α → α
  | .node a _ => a

/-- Children of the root of a subtree. -/
def Tree.children {α : Type} : Tree α → List (Tree α)
  | .node _ cs => cs

/-- All labels of a forest, in preorder. -/
def forestLabels {α : Type} : List (Tree α) → List α
  | [] => []
  | .node a cs :: rest => a :: (forestLabels cs ++ forestLabels rest)

/-- All labels of a forest, in postorder (descendants of a node before
the node itself), matching the emission order of the recursive helper
macro. -/
def postLabels {α : Type} : List (Tree α) → List α
  | [] => []
  | .node a cs :: rest => postLabels cs ++ a :: postLabels rest

/-- Labels occurring at depth at least 2 below the root of some tree of
the forest, viewing the forest members as children of a virtual parent:
for each member, all labels strictly below that member. -/
def gdLabels {α : Type} : List (Tree α) → List α
  | [] => []
  | .node _ cs :: rest => postLabels cs ++ gdLabels rest

/-- Occurrence of a subtree anywhere in a forest. -/
inductive SubF {α : Type} : Tree α → List (Tree α) → Prop where
  | here {t : Tree α} {rest : List (Tree α)} : SubF t (t :: rest)
  | inChildren {t : Tree α} {a : α} {cs rest : List (Tree α)} :
      SubF t cs → SubF t (Tree.node a cs :: rest)
  | inRest {t u : Tree α} {rest : List (Tree α)} :
      SubF t rest → SubF t (u :: rest)

/-- The pair (p, c) is a direct edge of the forest: some subtree is
labelled p and has an immediate child labelled c.  Direct edges are the
conversions the caller must supply; the macro never generates them. -/
def EdgeF {α : Type} (F : List (Tree α)) (p c : α) : Prop :=
  ∃ s, SubF s F ∧ s.label = p ∧ ∃ t, t ∈ s.children ∧ t.label = c

/-- The pair (t, s) is an ordered (ancestor, descendant) pair of the
forest at tree-distance at least 2: some subtree is labelled t and s
occurs strictly below one of its children. -/
def DeepPairF {α : Type} (F : List (Tree α)) (t s : α) : Prop :=
  ∃ u, SubF u F ∧ u.label = t ∧ s ∈ gdLabels u.children

mutual
/-- Path of labels from the root of a subtree down to the first
occurrence of label d, both endpoints included. -/
def pathTo? {α : Type} [DecidableEq α] (d : α) : Tree α → Option (List α)
  | .node a cs => if a = d then some [a] else (pathForest? d cs).map (fun q => a :: q)
/-- Path of labels from the first root of the forest containing label d
down to it. -/
def pathForest? {α : Type} [DecidableEq α] (d : α) : List (Tree α) → Option (List α)
  | [] => none
  | t :: rest =>
      match pathTo? d t with
      | some q => some q
      | none => pathForest? d rest
end

/-- Tree-distance from the root of subtree s down to label d: the
number of edges on the path, when d occurs in s. -/
def distance? {α : Type} [DecidableEq α] (s : Tree α) (d : α) : Option Nat :=
  (pathTo? d s).map (fun p => p.length - 1)

/-- One generated implementation: the binding set spliced into the impl
header, the conversion target (ancestor), the type whose From impl the
body invokes on the way (intermediate), and the conversion source
(descendant). -/
structure Impl (γ : Type) (α : Type) where
  generics : γ
  ancestor : α
  intermediate : α
  descendant : α
deriving DecidableEq, Repr

/-- The (ancestor, intermediate, descendant) triple of an artifact,
forgetting the binding set. -/
def Impl.triple {γ α : Type} (i : Impl γ α) : α × α × α :=
  (i.ancestor, i.intermediate, i.descendant)

/-- The (ancestor, descendant) pairs of a list of artifacts, in order. -/
def pairsOf {γ α : Type} (l : List (Impl γ α)) : List (α × α) :=
  l.map (fun i => (i.ancestor, i.descendant))

/-- Embedding of the __impl_from_internals_make_impl macro: it emits a
single implementation, from grandchild to root, whose body converts the
argument to child first and then to root. -/
def __impl_from_internals_make_impl {γ α : Type} (g : γ) (root child grandchild : α) :
    Impl γ α :=
  ⟨g, root, child, grandchild⟩

/-- Embedding of the __impl_from_internals_recursive macro: called with
a fixed root and a fixed child of that root, and with the forest of
nodes below the child; for every node of that forest it emits one
implementation from that node to root routed through child, recursing
into the further descendants of a grandchild before emitting the
implementation for the grandchild itself. -/
def __impl_from_internals_recursive {γ α : Type} (g : γ) (root child : α) :
    List (Tree α) → List (Impl γ α)
  | [] => []
  | .node gc further :: rest =>
      __impl_from_internals_recursive g root child further
        ++ __impl_from_internals_make_impl g root child gc
          :: __impl_from_internals_recursive g root child rest

/-- The per-child expansion step of the impl_from macro: for each child
of the current root that has a block, invoke the recursive helper on
the grandchildren of that child, in declaration order. -/
def childCalls {γ α : Type} (g : γ) (root : α) : List (Tree α) → List (Impl γ α)
  | [] => []
  | .node c gcs :: rest =>
      __impl_from_internals_recursive g root c gcs ++ childCalls g root rest

/-- Embedding of the impl_from macro on a forest of roots: for each
root with a block, first recursively expand impl_from on the forest of
its children, then run the recursive helper for every child, then
continue with the remaining roots. -/
def impl_from {γ α : Type} (g : γ) : List (Tree α) → List (Impl γ α)
  | [] => []
  | .node r cs :: rest =>
      (impl_from g cs ++ childCalls g r cs) ++ impl_from g rest

/-- Conversion obtained by chaining the direct step conversions along a
path of labels, from the last label of the path up to the first. -/
def chainStep {α V : Type} (step : α → α → V → V) : List α → V → V
  | x :: y :: p => fun v => step x y (chainStep step (y :: p) v)
  | _ => fun v => v

/-- Meaning of the body of one generated implementation, resolved
against a conversion environment: convert the argument from descendant
to intermediate, then from intermediate to ancestor. -/
def implDenote {γ α V : Type} (env : α → α → V → V) (i : Impl γ α) : V → V :=
  fun v => env i.ancestor i.intermediate (env i.intermediate i.descendant v)

/-- Installing one generated implementation into a conversion
environment: the pair (ancestor, descendant) now converts by the body
of the artifact, resolved against the environment available when the
artifact is emitted; other pairs are unchanged. -/
def applyImpl {γ α V : Type} [DecidableEq α] (env : α → α → V → V) (i : Impl γ α) :
    α → α → V → V :=
  fun t s => if t = i.ancestor ∧ s = i.descendant then implDenote env i else env t s

/-- Environment obtained by installing a list of generated
implementations, in emission order, over a base environment. -/
def buildEnv {γ α V : Type} [DecidableEq α] (env : α → α → V → V)
    (l : List (Impl γ α)) : α → α → V → V :=
  l.foldl applyImpl env

/-- The worked example hierarchy of the specification, written with
parentheses for nesting: A(B(E, F(J, K)), C(G), D(H, I(L))). -/
def exForest : List (Tree String) :=
  [Tree.node "A" [
     Tree.node "B" [Tree.node "E" [], Tree.node "F" [Tree.node "J" [], Tree.node "K" []]],
     Tree.node "C" [Tree.node "G" []],
     Tree.node "D" [Tree.node "H" [], Tree.node "I" [Tree.node "L" []]]]]

/-- A chain hierarchy 0 - 1 - 2 - 3 of depth 3, used to separate the
immediate parent of a descendant from the immediate child of its
ancestor. -/
def chainForest : List (Tree Nat) :=
  [Tree.node 0 [Tree.node 1 [Tree.node 2 [Tree.node 3 []]]]]

/-- The root tree of the worked example forest. -/
def exTreeA : Tree String :=
  Tree.node "A" [
     Tree.node "B" [Tree.node "E" [], Tree.node "F" [Tree.node "J" [], Tree.node "K" []]],
     Tree.node "C" [Tree.node "G" []],
     Tree.node "D" [Tree.node "H" [], Tree.node "I" [Tree.node "L" []]]]

@[simp] theorem label_node {α : Type} (a : α) (cs : List (Tree α)) :
    (Tree.node a cs).label = a := rfl

@[simp] theorem children_node {α : Type} (a : α) (cs : List (Tree α)) :
    (Tree.node a cs).children = cs := rfl

@[simp] theorem forestLabels_nil {α : Type} : forestLabels ([] : List (Tree α)) = [] := by
  simp [forestLabels]

@[simp] theorem forestLabels_cons {α : Type} (a : α) (cs rest : List (Tree α)) :
    forestLabels (Tree.node a cs :: rest) = a :: (forestLabels cs ++ forestLabels rest) := by
  simp [forestLabels]

@[simp] theorem postLabels_nil {α : Type} : postLabels ([] : List (Tree α)) = [] := by
  simp [postLabels]

@[simp] theorem postLabels_cons {α : Type} (a : α) (cs rest : List (Tree α)) :
    postLabels (Tree.node a cs :: rest) = postLabels cs ++ a :: postLabels rest := by
  simp [postLabels]

@[simp] theorem gdLabels_nil {α : Type} : gdLabels ([] : List (Tree α)) = [] := by
  simp [gdLabels]

@[simp] theorem gdLabels_cons {α : Type} (a : α) (cs rest : List (Tree α)) :
    gdLabels (Tree.node a cs :: rest) = postLabels cs ++ gdLabels rest := by
  simp [gdLabels]

theorem postLabels_perm {α : Type} : ∀ F : List (Tree α), (postLabels F).Perm (forestLabels F)
  | [] => by simp
  | .node a cs :: rest => by
      have h1 := postLabels_perm cs
      have h2 := postLabels_perm rest
      rw [postLabels_cons, forestLabels_cons]
      exact List.perm_middle.trans ((h1.append h2).cons a)

theorem mem_postLabels {α : Type} {x : α} {F : List (Tree α)} :
    x ∈ postLabels F ↔ x ∈ forestLabels F :=
  (postLabels_perm F).mem_iff

theorem subf_of_mem {α : Type} {t : Tree α} {F : List (Tree α)} (h : t ∈ F) : SubF t F := by
  induction F with
  | nil => cases h
  | cons u rest ih =>
      rcases List.mem_cons.mp h with h1 | h2
      · cases h1; exact SubF.here
      · exact SubF.inRest (ih h2)

theorem subf_infix {α : Type} {s : Tree α} : ∀ {F : List (Tree α)}, SubF s F →
    ∃ l r, forestLabels F = l ++ (s.label :: forestLabels s.children) ++ r
  | [], h => by cases h
  | .node a cs :: rest, h => by
      cases h with
      | here => exact ⟨[], forestLabels rest, by simp⟩
      | inChildren h' =>
          obtain ⟨l, r, hE⟩ := subf_infix h'
          exact ⟨a :: l, r ++ forestLabels rest, by simp [hE]⟩
      | inRest h' =>
          obtain ⟨l, r, hE⟩ := subf_infix h'
          exact ⟨a :: (forestLabels cs ++ l), r, by simp [hE]⟩

theorem subf_label_mem {α : Type} {s : Tree α} {F : List (Tree α)} (h : SubF s F) :
    s.label ∈ forestLabels F := by
  obtain ⟨l, r, hE⟩ := subf_infix h
  rw [hE]
  simp

theorem subf_labels_sub {α : Type} {s : Tree α} {F : List (Tree α)} (h : SubF s F)
    {x : α} (hx : x ∈ forestLabels s.children) : x ∈ forestLabels F := by
  obtain ⟨l, r, hE⟩ := subf_infix h
  rw [hE]
  simp [hx]

theorem subf_nodup {α : Type} {s : Tree α} {F : List (Tree α)}
    (hnd : (forestLabels F).Nodup) (h : SubF s F) :
    (s.label :: forestLabels s.children).Nodup := by
  obtain ⟨l, r, hE⟩ := subf_infix h
  have hsub : (s.label :: forestLabels s.children).Sublist (forestLabels F) := by
    rw [hE]
    exact (List.sublist_append_right l _).trans (List.sublist_append_left _ r)
  exact hsub.nodup hnd

theorem mem_gdLabels {α : Type} {x : α} : ∀ {F : List (Tree α)},
    x ∈ gdLabels F ↔ ∃ c ∈ F, x ∈ postLabels c.children
  | [] => by simp
  | .node a cs :: rest => by
      have ih : x ∈ gdLabels rest ↔ ∃ c ∈ rest, x ∈ postLabels c.children := mem_gdLabels
      constructor
      · intro h
        rw [gdLabels_cons, List.mem_append] at h
        rcases h with h | h
        · exact ⟨Tree.node a cs, List.mem_cons_self _ _, by simpa using h⟩
        · obtain ⟨c, hc, hx⟩ := ih.mp h
          exact ⟨c, List.mem_cons_of_mem _ hc, hx⟩
      · rintro ⟨c, hc, hx⟩
        rw [gdLabels_cons, List.mem_append]
        rcases List.mem_cons.mp hc with h1 | h2
        · subst h1
          exact Or.inl (by simpa using hx)
        · exact Or.inr (ih.mpr ⟨c, h2, hx⟩)

theorem child_label_mem {α : Type} {c : Tree α} {F : List (Tree α)} (h : c ∈ F) :
    c.label ∈ forestLabels F :=
  subf_label_mem (subf_of_mem h)

theorem gd_subset {α : Type} {x : α} {F : List (Tree α)} (h : x ∈ gdLabels F) :
    x ∈ forestLabels F := by
  obtain ⟨c, hc, hx⟩ := mem_gdLabels.mp h
  exact subf_labels_sub (subf_of_mem hc) (mem_postLabels.mp hx)

theorem gd_nodup {α : Type} : ∀ {F : List (Tree α)},
    (forestLabels F).Nodup → (gdLabels F).Nodup
  | [] => by simp
  | .node a cs :: rest => by
      intro hnd
      rw [forestLabels_cons, List.nodup_cons, List.nodup_append] at hnd
      obtain ⟨-, hcs, hrest, hdisj⟩ := hnd
      rw [gdLabels_cons, List.nodup_append]
      refine ⟨(postLabels_perm cs).nodup_iff.mpr hcs, gd_nodup hrest, ?_⟩
      intro x hx hx'
      exact hdisj (mem_postLabels.mp hx) (gd_subset hx')

theorem top_not_gd {α : Type} : ∀ {F : List (Tree α)},
    (forestLabels F).Nodup → ∀ {c : Tree α}, c ∈ F → c.label ∉ gdLabels F
  | [], _, _, h => by cases h
  | .node a cs :: rest, hnd, c, hc => by
      rw [forestLabels_cons, List.nodup_cons, List.nodup_append] at hnd
      obtain ⟨ha, hcs, hrest, hdisj⟩ := hnd
      rw [gdLabels_cons]
      intro hmem
      rcases List.mem_append.mp hmem with h | h
      · rcases List.mem_cons.mp hc with h1 | h2
        · subst h1
          exact ha (List.mem_append.mpr (Or.inl (mem_postLabels.mp (by simpa using h))))
        · exact hdisj (mem_postLabels.mp h) (child_label_mem h2)
      · rcases List.mem_cons.mp hc with h1 | h2
        · subst h1
          exact ha (List.mem_append.mpr (Or.inr (gd_subset (by simpa using h))))
        · exact top_not_gd hrest h2 h

theorem mem_forestLabels_cases {α : Type} {x : α} : ∀ {F : List (Tree α)},
    x ∈ forestLabels F ↔ ∃ c ∈ F, x = c.label ∨ x ∈ forestLabels c.children
  | [] => by simp
  | .node a cs :: rest => by
      have ih : x ∈ forestLabels rest ↔ ∃ c ∈ rest, x = c.label ∨ x ∈ forestLabels c.children :=
        mem_forestLabels_cases
      constructor
      · intro h
        rw [forestLabels_cons, List.mem_cons, List.mem_append] at h
        rcases h with h | h | h
        · exact ⟨Tree.node a cs, List.mem_cons_self _ _, Or.inl (by simpa using h)⟩
        · exact ⟨Tree.node a cs, List.mem_cons_self _ _, Or.inr (by simpa using h)⟩
        · obtain ⟨c, hc, hx⟩ := ih.mp h
          exact ⟨c, List.mem_cons_of_mem _ hc, hx⟩
      · rintro ⟨c, hc, hx⟩
        rw [forestLabels_cons, List.mem_cons, List.mem_append]
        rcases List.mem_cons.mp hc with h1 | h2
        · subst h1
          rcases hx with h | h
          · exact Or.inl (by simpa using h)
          · exact Or.inr (Or.inl (by simpa using h))
        · exact Or.inr (Or.inr (ih.mpr ⟨c, h2, hx⟩))

theorem subf_unique {α : Type} : ∀ {F : List (Tree α)} {s s' : Tree α},
    (forestLabels F).Nodup → SubF s F → SubF s' F → s.label = s'.label → s = s'
  | [], _, _, _, h, _, _ => by cases h
  | .node a cs :: rest, s, s', hnd, h1, h2, hl => by
      rw [forestLabels_cons, List.nodup_cons, List.nodup_append] at hnd
      obtain ⟨ha, hcs, hrest, hdisj⟩ := hnd
      cases h1 with
      | here =>
          cases h2 with
          | here => rfl
          | inChildren h2' =>
              exfalso
              have hm : s'.label ∈ forestLabels cs := subf_label_mem h2'
              have hla : a = s'.label := by simpa using hl
              rw [← hla] at hm
              exact ha (List.mem_append.mpr (Or.inl hm))
          | inRest h2' =>
              exfalso
              have hm : s'.label ∈ forestLabels rest := subf_label_mem h2'
              have hla : a = s'.label := by simpa using hl
              rw [← hla] at hm
              exact ha (List.mem_append.mpr (Or.inr hm))
      | inChildren h1' =>
          cases h2 with
          | here =>
              exfalso
              have hm : s.label ∈ forestLabels cs := subf_label_mem h1'
              have hla : s.label = a := by simpa using hl
              rw [hla] at hm
              exact ha (List.mem_append.mpr (Or.inl hm))
          | inChildren h2' => exact subf_unique hcs h1' h2' hl
          | inRest h2' =>
              exfalso
              have hm : s.label ∈ forestLabels cs := subf_label_mem h1'
              have hm' : s'.label ∈ forestLabels rest := subf_label_mem h2'
              rw [← hl] at hm'
              exact hdisj hm hm'
      | inRest h1' =>
          cases h2 with
          | here =>
              exfalso
              have hm : s.label ∈ forestLabels rest := subf_label_mem h1'
              have hla : s.label = a := by simpa using hl
              rw [hla] at hm
              exact ha (List.mem_append.mpr (Or.inr hm))
          | inChildren h2' =>
              exfalso
              have hm : s.label ∈ forestLabels rest := subf_label_mem h1'
              have hm' : s'.label ∈ forestLabels cs := subf_label_mem h2'
              rw [← hl] at hm'
              exact hdisj hm' hm
          | inRest h2' => exact subf_unique hrest h1' h2' hl

theorem pathTo?_node {α : Type} [DecidableEq α] (d a : α) (cs : List (Tree α)) :
    pathTo? d (Tree.node a cs)
      = if a = d then some [a] else (pathForest? d cs).map (fun q => a :: q) := by
  simp [pathTo?]

theorem pathForest?_nil {α : Type} [DecidableEq α] (d : α) :
    pathForest? d ([] : List (Tree α)) = none := by
  simp [pathForest?]

theorem pathForest?_cons_some {α : Type} [DecidableEq α] {d : α} {t : Tree α}
    {q : List α} (rest : List (Tree α)) (h : pathTo? d t = some q) :
    pathForest? d (t :: rest) = some q := by
  simp [pathForest?, h]

theorem pathForest?_cons_none {α : Type} [DecidableEq α] {d : α} {t : Tree α}
    (rest : List (Tree α)) (h : pathTo? d t = none) :
    pathForest? d (t :: rest) = pathForest? d rest := by
  simp [pathForest?, h]

theorem pathTo?_inv {α : Type} [DecidableEq α] {d a : α} {cs : List (Tree α)} {p : List α}
    (h : pathTo? d (Tree.node a cs) = some p) :
    (d = a ∧ p = [a]) ∨ (a ≠ d ∧ ∃ q, p = a :: q ∧ pathForest? d cs = some q) := by
  rw [pathTo?_node] at h
  by_cases had : a = d
  · rw [if_pos had] at h
    simp at h
    exact Or.inl ⟨had.symm, h.symm⟩
  · rw [if_neg had] at h
    rcases hq : pathForest? d cs with _ | q
    · rw [hq] at h
      simp at h
    · rw [hq] at h
      simp at h
      exact Or.inr ⟨had, q, h.symm, rfl⟩

theorem pathForest?_inv {α : Type} [DecidableEq α] {d : α} {t : Tree α}
    {rest : List (Tree α)} {q : List α} (h : pathForest? d (t :: rest) = some q) :
    pathTo? d t = some q ∨ (pathTo? d t = none ∧ pathForest? d rest = some q) := by
  rcases hp : pathTo? d t with _ | q'
  · rw [pathForest?_cons_none rest hp] at h
    exact Or.inr ⟨rfl, h⟩
  · rw [pathForest?_cons_some rest hp] at h
    simp at h
    exact Or.inl (by rw [h])

mutual
theorem pathTo?_mem {α : Type} [DecidableEq α] {d : α} : ∀ (t : Tree α) {p : List α},
    pathTo? d t = some p → d = t.label ∨ d ∈ forestLabels t.children
  | .node a cs, p, h => by
      rcases pathTo?_inv h with ⟨hda, _⟩ | ⟨_, q, _, hq⟩
      · exact Or.inl (by simpa using hda)
      · exact Or.inr (by simpa using pathForest?_mem cs hq)
theorem pathForest?_mem {α : Type} [DecidableEq α] {d : α} : ∀ (F : List (Tree α)) {q : List α},
    pathForest? d F = some q → d ∈ forestLabels F
  | [], q, h => by rw [pathForest?_nil] at h; cases h
  | t :: rest, q, h => by
      cases t with
      | node a cs =>
          rw [forestLabels_cons]
          rcases pathForest?_inv h with h1 | ⟨_, h1⟩
          · rcases pathTo?_mem (Tree.node a cs) h1 with he | hm
            · exact List.mem_cons.mpr (Or.inl (by simpa using he))
            · exact List.mem_cons.mpr
                (Or.inr (List.mem_append.mpr (Or.inl (by simpa using hm))))
          · exact List.mem_cons.mpr (Or.inr (List.mem_append.mpr
              (Or.inr (pathForest?_mem rest h1))))
end

mutual
theorem pathTo?_exists {α : Type} [DecidableEq α] {d : α} : ∀ (t : Tree α),
    d = t.label ∨ d ∈ forestLabels t.children → ∃ p, pathTo? d t = some p
  | .node a cs, h => by
      by_cases had : a = d
      · exact ⟨[a], by rw [pathTo?_node, if_pos had]⟩
      · have hm : d ∈ forestLabels cs := by
          rcases h with he | hm
          · exact absurd (by simpa using he.symm) had
          · simpa using hm
        obtain ⟨q, hq⟩ := pathForest?_exists cs hm
        exact ⟨a :: q, by rw [pathTo?_node, if_neg had, hq]; rfl⟩
theorem pathForest?_exists {α : Type} [DecidableEq α] {d : α} : ∀ (F : List (Tree α)),
    d ∈ forestLabels F → ∃ q, pathForest? d F = some q
  | [], h => by simp at h
  | t :: rest, h => by
      rcases hp : pathTo? d t with _ | p
      · have hnt : ¬(d = t.label ∨ d ∈ forestLabels t.children) := by
          intro hcon
          obtain ⟨p, hp'⟩ := pathTo?_exists t hcon
          rw [hp'] at hp
          cases hp
        have hm : d ∈ forestLabels rest := by
          cases t with
          | node a cs =>
              rw [forestLabels_cons] at h
              rcases List.mem_cons.mp h with h1 | h2
              · exact absurd (Or.inl (by simpa using h1)) hnt
              · rcases List.mem_append.mp h2 with h3 | h4
                · exact absurd (Or.inr (by simpa using h3)) hnt
                · exact h4
        obtain ⟨q, hq⟩ := pathForest?_exists rest hm
        exact ⟨q, by rw [pathForest?_cons_none rest hp, hq]⟩
      · exact ⟨p, pathForest?_cons_some rest hp⟩
end

theorem pathForest?_none {α : Type} [DecidableEq α] {d : α} {F : List (Tree α)}
    (h : d ∉ forestLabels F) : pathForest? d F = none := by
  rcases hq : pathForest? d F with _ | q
  · rfl
  · exact absurd (pathForest?_mem F hq) h

theorem pathForest?_structure {α : Type} [DecidableEq α] {d : α} : ∀ {F : List (Tree α)}
    {q : List α}, pathForest? d F = some q →
    ∃ c ∈ F, (q = [d] ∧ c.label = d) ∨
      (∃ q', q = c.label :: q' ∧ pathForest? d c.children = some q'
        ∧ d ∈ forestLabels c.children)
  | [], _, h => by rw [pathForest?_nil] at h; cases h
  | t :: rest, q, h => by
      rcases pathForest?_inv h with h1 | ⟨_, h1⟩
      · cases t with
        | node a cs =>
            rcases pathTo?_inv h1 with ⟨hda, hp⟩ | ⟨hne, q', hp, hq'⟩
            · refine ⟨Tree.node a cs, List.mem_cons_self _ _, Or.inl ⟨?_, by simpa using hda.symm⟩⟩
              rw [hp, hda]
            · exact ⟨Tree.node a cs, List.mem_cons_self _ _,
                Or.inr ⟨q', by simpa using hp, by simpa using hq',
                  by simpa using pathForest?_mem cs hq'⟩⟩
      · obtain ⟨c, hc, hcase⟩ := pathForest?_structure h1
        exact ⟨c, List.mem_cons_of_mem _ hc, hcase⟩

theorem pathForest?_through {α : Type} [DecidableEq α] {d : α} : ∀ {F : List (Tree α)},
    (forestLabels F).Nodup → ∀ {c : Tree α}, c ∈ F → d ∈ forestLabels c.children →
    ∃ q, pathForest? d F = some (c.label :: q) ∧ pathForest? d c.children = some q
  | [], _, _, hc, _ => by cases hc
  | .node a cs :: rest, hnd, c, hc, hd => by
      rw [forestLabels_cons, List.nodup_cons, List.nodup_append] at hnd
      obtain ⟨ha, hcs, hrest, hdisj⟩ := hnd
      rcases List.mem_cons.mp hc with h1 | h2
      · subst h1
        have hd' : d ∈ forestLabels cs := by simpa using hd
        have hne : a ≠ d := fun he => ha (List.mem_append.mpr (Or.inl (by rw [he]; exact hd')))
        obtain ⟨q, hq⟩ := pathForest?_exists cs hd'
        have hpt : pathTo? d (Tree.node a cs) = some (a :: q) := by
          rw [pathTo?_node, if_neg hne, hq]
          rfl
        refine ⟨q, ?_, by simpa using hq⟩
        rw [pathForest?_cons_some rest hpt]
        simp
      · have hdm : d ∈ forestLabels rest := subf_labels_sub (subf_of_mem h2) hd
        have hne : a ≠ d := fun he => ha (List.mem_append.mpr (Or.inr (by rw [he]; exact hdm)))
        have hncs : pathForest? d cs = none := pathForest?_none (fun hm => hdisj hm hdm)
        have hpt : pathTo? d (Tree.node a cs) = none := by
          rw [pathTo?_node, if_neg hne, hncs]
          rfl
        obtain ⟨q, hq1, hq2⟩ := pathForest?_through hrest h2 hd
        exact ⟨q, by rw [pathForest?_cons_none rest hpt]; exact hq1, hq2⟩

theorem pathTo?_ne_nil {α : Type} [DecidableEq α] {d : α} {t : Tree α} {p : List α}
    (h : pathTo? d t = some p) : p ≠ [] := by
  cases t with
  | node a cs =>
      rcases pathTo?_inv h with ⟨_, hp⟩ | ⟨_, q, hp, _⟩ <;> simp [hp]

@[simp] theorem impl_from_nil {γ α : Type} (g : γ) : impl_from g ([] : List (Tree α)) = [] := by
  simp [impl_from]

@[simp] theorem impl_from_cons {γ α : Type} (g : γ) (r : α) (cs rest : List (Tree α)) :
    impl_from g (Tree.node r cs :: rest)
      = (impl_from g cs ++ childCalls g r cs) ++ impl_from g rest := by
  simp [impl_from]

@[simp] theorem childCalls_nil {γ α : Type} (g : γ) (r : α) :
    childCalls g r ([] : List (Tree α)) = [] := by
  simp [childCalls]

@[simp] theorem childCalls_cons {γ α : Type} (g : γ) (r c : α) (gcs rest : List (Tree α)) :
    childCalls g r (Tree.node c gcs :: rest)
      = __impl_from_internals_recursive g r c gcs ++ childCalls g r rest := by
  simp [childCalls]

theorem ir_eq_map {γ α : Type} (g : γ) (r c : α) : ∀ F : List (Tree α),
    __impl_from_internals_recursive g r c F
      = (postLabels F).map (fun d => (⟨g, r, c, d⟩ : Impl γ α))
  | [] => by simp [__impl_from_internals_recursive]
  | .node gc further :: rest => by
      have h1 := ir_eq_map g r c further
      have h2 := ir_eq_map g r c rest
      simp [__impl_from_internals_recursive, __impl_from_internals_make_impl, h1, h2]

theorem mem_ir {γ α : Type} {g : γ} {r c : α} {F : List (Tree α)} {i : Impl γ α} :
    i ∈ __impl_from_internals_recursive g r c F
      ↔ ∃ d ∈ postLabels F, i = ⟨g, r, c, d⟩ := by
  rw [ir_eq_map]
  simp [eq_comm]

theorem mem_childCalls {γ α : Type} {g : γ} {r : α} {i : Impl γ α} : ∀ {cs : List (Tree α)},
    i ∈ childCalls g r cs
      ↔ ∃ c ∈ cs, ∃ d ∈ postLabels c.children, i = ⟨g, r, c.label, d⟩
  | [] => by simp
  | .node c gcs :: rest => by
      have ih : i ∈ childCalls g r rest
          ↔ ∃ c ∈ rest, ∃ d ∈ postLabels c.children, i = ⟨g, r, c.label, d⟩ :=
        mem_childCalls
      rw [childCalls_cons, List.mem_append, mem_ir, ih]
      constructor
      · rintro (⟨d, hd, hi⟩ | ⟨c', hc', d, hd, hi⟩)
        · exact ⟨Tree.node c gcs, List.mem_cons_self _ _, d, by simpa using hd, by simpa using hi⟩
        · exact ⟨c', List.mem_cons_of_mem _ hc', d, hd, hi⟩
      · rintro ⟨c', hc', d, hd, hi⟩
        rcases List.mem_cons.mp hc' with h1 | h2
        · subst h1
          exact Or.inl ⟨d, by simpa using hd, by simpa using hi⟩
        · exact Or.inr ⟨c', h2, d, hd, hi⟩

theorem mem_impl_from {γ α : Type} {g : γ} {i : Impl γ α} : ∀ {F : List (Tree α)},
    i ∈ impl_from g F
      ↔ ∃ s, SubF s F ∧ ∃ c ∈ s.children, ∃ d ∈ postLabels c.children,
          i = ⟨g, s.label, c.label, d⟩
  | [] => by
      constructor
      · intro h
        simp at h
      · rintro ⟨s, hs, -⟩
        cases hs
  | .node r cs :: rest => by
      have ih1 : i ∈ impl_from g cs
          ↔ ∃ s, SubF s cs ∧ ∃ c ∈ s.children, ∃ d ∈ postLabels c.children,
              i = ⟨g, s.label, c.label, d⟩ :=
        mem_impl_from
      have ih2 : i ∈ impl_from g rest
          ↔ ∃ s, SubF s rest ∧ ∃ c ∈ s.children, ∃ d ∈ postLabels c.children,
              i = ⟨g, s.label, c.label, d⟩ :=
        mem_impl_from
      rw [impl_from_cons, List.mem_append, List.mem_append, ih1, ih2, mem_childCalls]
      constructor
      · rintro ((⟨s, hs, hrest⟩ | ⟨c, hc, d, hd, hi⟩) | ⟨s, hs, hrest⟩)
        · exact ⟨s, SubF.inChildren hs, hrest⟩
        · exact ⟨Tree.node r cs, SubF.here, c, by simpa using hc, d, hd, by simpa using hi⟩
        · exact ⟨s, SubF.inRest hs, hrest⟩
      · rintro ⟨s, hs, hrest⟩
        cases hs with
        | here =>
            obtain ⟨c, hc, d, hd, hi⟩ := hrest
            exact Or.inl (Or.inr ⟨c, by simpa using hc, d, hd, by simpa using hi⟩)
        | inChildren hs' => exact Or.inl (Or.inl ⟨s, hs', hrest⟩)
        | inRest hs' => exact Or.inr ⟨s, hs', hrest⟩

theorem ancestor_mem {γ α : Type} {g : γ} {i : Impl γ α} {F : List (Tree α)}
    (h : i ∈ impl_from g F) : i.ancestor ∈ forestLabels F := by
  obtain ⟨s, hs, c, hc, d, hd, hi⟩ := mem_impl_from.mp h
  rw [hi]
  exact subf_label_mem hs

theorem generics_of_mem {γ α : Type} {g : γ} {i : Impl γ α} {F : List (Tree α)}
    (h : i ∈ impl_from g F) : i.generics = g := by
  obtain ⟨s, hs, c, hc, d, hd, hi⟩ := mem_impl_from.mp h
  rw [hi]

theorem ancestor_of_childCalls {γ α : Type} {g : γ} {r : α} {i : Impl γ α}
    {cs : List (Tree α)} (h : i ∈ childCalls g r cs) : i.ancestor = r := by
  obtain ⟨c, hc, d, hd, hi⟩ := mem_childCalls.mp h
  rw [hi]

theorem pairsOf_append {γ α : Type} (l₁ l₂ : List (Impl γ α)) :
    pairsOf (l₁ ++ l₂) = pairsOf l₁ ++ pairsOf l₂ := by
  simp [pairsOf]

theorem pairsOf_childCalls {γ α : Type} (g : γ) (r : α) : ∀ cs : List (Tree α),
    pairsOf (childCalls g r cs) = (gdLabels cs).map (fun d => (r, d))
  | [] => by simp [pairsOf]
  | .node c gcs :: rest => by
      have ih := pairsOf_childCalls g r rest
      rw [childCalls_cons, pairsOf_append, ih, ir_eq_map, gdLabels_cons, List.map_append]
      simp [pairsOf, Function.comp]

theorem pair_mem_first {γ α : Type} {g : γ} {F : List (Tree α)} {x y : α}
    (h : (x, y) ∈ pairsOf (impl_from g F)) : x ∈ forestLabels F := by
  simp only [pairsOf, List.mem_map] at h
  obtain ⟨i, hi, he⟩ := h
  have := ancestor_mem hi
  rw [show i.ancestor = x from congrArg Prod.fst he] at this
  exact this

theorem pairs_nodup {γ α : Type} {g : γ} : ∀ {F : List (Tree α)},
    (forestLabels F).Nodup → (pairsOf (impl_from g F)).Nodup
  | [] => by simp [pairsOf]
  | .node r cs :: rest => by
      intro hnd
      rw [forestLabels_cons, List.nodup_cons, List.nodup_append] at hnd
      obtain ⟨ha, hcs, hrest, hdisj⟩ := hnd
      rw [impl_from_cons, pairsOf_append, pairsOf_append, pairsOf_childCalls]
      rw [List.nodup_append, List.nodup_append]
      refine ⟨⟨pairs_nodup hcs, ?_, ?_⟩, pairs_nodup hrest, ?_⟩
      · exact (gd_nodup hcs).map (fun x y hxy => by
          simpa using congrArg Prod.snd hxy)
      · intro z hz hz'
        obtain ⟨x, y, rfl⟩ : ∃ x y, z = (x, y) := ⟨z.1, z.2, rfl⟩
        have hx : x ∈ forestLabels cs := pair_mem_first hz
        simp only [List.mem_map] at hz'
        obtain ⟨d, -, he⟩ := hz'
        have : r = x := congrArg Prod.fst he
        rw [← this] at hx
        exact ha (List.mem_append.mpr (Or.inl hx))
      · intro z hz hz'
        obtain ⟨x, y, rfl⟩ : ∃ x y, z = (x, y) := ⟨z.1, z.2, rfl⟩
        have hx' : x ∈ forestLabels rest := pair_mem_first hz'
        rcases List.mem_append.mp hz with h1 | h2
        · exact hdisj (pair_mem_first h1) hx'
        · simp only [List.mem_map] at h2
          obtain ⟨d, -, he⟩ := h2
          have : r = x := congrArg Prod.fst he
          rw [← this] at hx'
          exact ha (List.mem_append.mpr (Or.inr hx'))

@[simp] theorem buildEnv_nil {γ α V : Type} [DecidableEq α] (env : α → α → V → V) :
    buildEnv env ([] : List (Impl γ α)) = env := rfl

@[simp] theorem buildEnv_cons {γ α V : Type} [DecidableEq α] (env : α → α → V → V)
    (i : Impl γ α) (l : List (Impl γ α)) :
    buildEnv env (i :: l) = buildEnv (applyImpl env i) l := rfl

theorem buildEnv_append {γ α V : Type} [DecidableEq α] (env : α → α → V → V)
    (l₁ l₂ : List (Impl γ α)) :
    buildEnv env (l₁ ++ l₂) = buildEnv (buildEnv env l₁) l₂ :=
  List.foldl_append _ _ _ _

theorem applyImpl_ne {γ α V : Type} [DecidableEq α] (env : α → α → V → V)
    (i : Impl γ α) {t s : α} (h : ¬(t = i.ancestor ∧ s = i.descendant)) :
    applyImpl env i t s = env t s := by
  simp [applyImpl, h]

theorem applyImpl_self {γ α V : Type} [DecidableEq α] (env : α → α → V → V)
    (i : Impl γ α) : applyImpl env i i.ancestor i.descendant = implDenote env i := by
  simp [applyImpl]

theorem buildEnv_frame {γ α V : Type} [DecidableEq α] :
    ∀ (l : List (Impl γ α)) (env : α → α → V → V) (t s : α),
      (∀ i ∈ l, ¬(t = i.ancestor ∧ s = i.descendant)) → buildEnv env l t s = env t s
  | [], _, _, _, _ => rfl
  | i :: l, env, t, s, h => by
      rw [buildEnv_cons, buildEnv_frame l _ t s (fun j hj => h j (List.mem_cons_of_mem _ hj))]
      exact applyImpl_ne env i (h i (List.mem_cons_self _ _))

theorem buildEnv_uniform {γ α V : Type} [DecidableEq α] (g : γ) (r cl : α) :
    ∀ (L : List α) (env : α → α → V → V), cl ≠ r → cl ∉ L → L.Nodup →
      (∀ d ∈ L, buildEnv env (L.map (fun d => (⟨g, r, cl, d⟩ : Impl γ α))) r d
          = fun v => env r cl (env cl d v))
      ∧ (∀ t s, (t ≠ r ∨ s ∉ L) →
          buildEnv env (L.map (fun d => (⟨g, r, cl, d⟩ : Impl γ α))) t s = env t s)
  | [], env, _, _, _ => by simp
  | d₀ :: L, env, hne, hcl, hnd => by
      rw [List.nodup_cons] at hnd
      obtain ⟨hd₀, hnd'⟩ := hnd
      have hcl' : cl ∉ L := fun h => hcl (List.mem_cons_of_mem _ h)
      have hcld₀ : cl ≠ d₀ := fun h => hcl (by rw [h]; exact List.mem_cons_self _ _)
      have ih := buildEnv_uniform g r cl L (applyImpl env ⟨g, r, cl, d₀⟩) hne hcl' hnd'
      constructor
      · intro d hd
        rw [List.map_cons, buildEnv_cons]
        rcases List.mem_cons.mp hd with h1 | h2
        · subst h1
          rw [ih.2 r d (Or.inr hd₀)]
          rw [applyImpl_self]
          funext v
          simp only [implDenote]
        · rw [ih.1 d h2]
          funext v
          rw [applyImpl_ne env _ (fun hc => hcld₀ hc.2),
            applyImpl_ne env _ (fun hc => hne hc.1)]
      · intro t s hts
        rw [List.map_cons, buildEnv_cons]
        have hts' : t ≠ r ∨ s ∉ L := by
          rcases hts with h | h
          · exact Or.inl h
          · exact Or.inr (fun hm => h (List.mem_cons_of_mem _ hm))
        rw [ih.2 t s hts']
        refine applyImpl_ne env _ ?_
        rintro ⟨rfl, rfl⟩
        rcases hts with h | h
        · exact h rfl
        · exact h (List.mem_cons_self _ _)

theorem buildEnv_cc {γ α V : Type} [DecidableEq α] (g : γ) (r : α) :
    ∀ (cs : List (Tree α)) (env : α → α → V → V),
      r ∉ forestLabels cs → (forestLabels cs).Nodup →
      (∀ c ∈ cs, ∀ d ∈ postLabels c.children,
          buildEnv env (childCalls g r cs) r d = fun v => env r c.label (env c.label d v))
      ∧ (∀ t s, (t ≠ r ∨ s ∉ gdLabels cs) → buildEnv env (childCalls g r cs) t s = env t s)
  | [], env, _, _ => by simp
  | .node cl gcs :: rest, env, hr, hnd => by
      rw [forestLabels_cons, List.nodup_cons, List.nodup_append] at hnd
      obtain ⟨hcl, hgcs, hrest, hdisj⟩ := hnd
      have hrcl : cl ≠ r := fun h => hr (by rw [← h]; simp)
      have hrrest : r ∉ forestLabels rest := fun h => hr (by simp [h])
      have hclpost : cl ∉ postLabels gcs :=
        fun h => hcl (List.mem_append.mpr (Or.inl (mem_postLabels.mp h)))
      have hU := buildEnv_uniform g r cl (postLabels gcs) env hrcl hclpost
        ((postLabels_perm gcs).nodup_iff.mpr hgcs)
      rw [childCalls_cons, ir_eq_map, buildEnv_append]
      set env₁ := buildEnv env ((postLabels gcs).map (fun d => (⟨g, r, cl, d⟩ : Impl γ α)))
        with henv₁
      have ih := buildEnv_cc g r rest env₁ hrrest hrest
      constructor
      · intro c hc d hd
        rcases List.mem_cons.mp hc with h1 | h2
        · subst h1
          have hd' : d ∈ postLabels gcs := by simpa using hd
          have hdrest : d ∉ gdLabels rest := by
            intro hm
            exact hdisj (mem_postLabels.mp hd') (gd_subset hm)
          rw [ih.2 r d (Or.inr hdrest)]
          simpa using hU.1 d hd'
        · have hclabel : c.label ∈ forestLabels rest := child_label_mem h2
          have h₁ : env₁ r c.label = env r c.label := by
            refine hU.2 r c.label (Or.inr ?_)
            intro hm
            exact hdisj (mem_postLabels.mp hm) hclabel
          have h₂ : env₁ c.label d = env c.label d := by
            refine hU.2 c.label d (Or.inl ?_)
            intro he
            exact hrrest (by rw [← he]; exact hclabel)
          rw [ih.1 c h2 d hd, h₁, h₂]
      · intro t s hts
        have hts' : t ≠ r ∨ s ∉ gdLabels rest := by
          rcases hts with h | h
          · exact Or.inl h
          · exact Or.inr (fun hm => h (by rw [gdLabels_cons]; exact List.mem_append.mpr (Or.inr hm)))
        have hts'' : t ≠ r ∨ s ∉ postLabels gcs := by
          rcases hts with h | h
          · exact Or.inl h
          · exact Or.inr (fun hm => h (by rw [gdLabels_cons]; exact List.mem_append.mpr (Or.inl hm)))
        rw [ih.2 t s hts', hU.2 t s hts'']

theorem deepPairF_cons {α : Type} {a : α} {cs rest : List (Tree α)} {t s : α} :
    DeepPairF (Tree.node a cs :: rest) t s
      ↔ (t = a ∧ s ∈ gdLabels cs) ∨ DeepPairF cs t s ∨ DeepPairF rest t s := by
  constructor
  · rintro ⟨u, hu, hl, hs⟩
    cases hu with
    | here => exact Or.inl ⟨by simpa using hl.symm, by simpa using hs⟩
    | inChildren hu' => exact Or.inr (Or.inl ⟨u, hu', hl, hs⟩)
    | inRest hu' => exact Or.inr (Or.inr ⟨u, hu', hl, hs⟩)
  · rintro (⟨hta, hs⟩ | ⟨u, hu, hl, hs⟩ | ⟨u, hu, hl, hs⟩)
    · exact ⟨Tree.node a cs, SubF.here, by simp [hta], by simpa using hs⟩
    · exact ⟨u, SubF.inChildren hu, hl, hs⟩
    · exact ⟨u, SubF.inRest hu, hl, hs⟩

theorem deepPairF_first_mem {α : Type} {F : List (Tree α)} {t s : α}
    (h : DeepPairF F t s) : t ∈ forestLabels F := by
  obtain ⟨u, hu, hl, -⟩ := h
  rw [← hl]
  exact subf_label_mem hu

theorem chainStep_cons {α V : Type} (step : α → α → V → V) (x y : α) (p : List α) :
    chainStep step (x :: y :: p) = fun v => step x y (chainStep step (y :: p) v) := by
  simp [chainStep]

theorem chainStep_pair {α V : Type} (step : α → α → V → V) (x y : α) :
    chainStep step [x, y] = fun v => step x y v := by
  funext v
  rw [chainStep_cons]
  simp [chainStep]

theorem buildEnv_main {γ α V : Type} [DecidableEq α] (g : γ) (step : α → α → V → V) :
    ∀ (F : List (Tree α)) (env : α → α → V → V),
      (forestLabels F).Nodup →
      (∀ s, SubF s F → ∀ c ∈ s.children, env s.label c.label = step s.label c.label) →
      (∀ s, SubF s F → ∀ d q, pathForest? d s.children = some q →
          buildEnv env (impl_from g F) s.label d = chainStep step (s.label :: q))
      ∧ (∀ t u, ¬ DeepPairF F t u → buildEnv env (impl_from g F) t u = env t u)
  | [], env, _, _ => by
      constructor
      · intro s hs
        cases hs
      · intro t u _
        simp
  | .node r cs :: rest, env, hnd, hedge => by
      rw [forestLabels_cons, List.nodup_cons, List.nodup_append] at hnd
      obtain ⟨hr, hcs, hrest, hdisj⟩ := hnd
      have hrcs : r ∉ forestLabels cs := fun h => hr (List.mem_append.mpr (Or.inl h))
      have hrrest : r ∉ forestLabels rest := fun h => hr (List.mem_append.mpr (Or.inr h))
      have hedgecs : ∀ s, SubF s cs → ∀ c ∈ s.children,
          env s.label c.label = step s.label c.label :=
        fun s hs c hc => hedge s (SubF.inChildren hs) c hc
      have ih1 := buildEnv_main g step cs env hcs hedgecs
      have hcc := buildEnv_cc g r cs (buildEnv env (impl_from g cs)) hrcs hcs
      have hedgerest : ∀ s, SubF s rest → ∀ c ∈ s.children,
          buildEnv (buildEnv env (impl_from g cs)) (childCalls g r cs) s.label c.label
            = step s.label c.label := by
        intro s hs c hc
        have hsl : s.label ∈ forestLabels rest := subf_label_mem hs
        have h₂ : buildEnv (buildEnv env (impl_from g cs)) (childCalls g r cs) s.label c.label
            = buildEnv env (impl_from g cs) s.label c.label := by
          refine hcc.2 s.label c.label (Or.inl ?_)
          intro he
          exact hrrest (by rw [← he]; exact hsl)
        have h₁ : buildEnv env (impl_from g cs) s.label c.label = env s.label c.label := by
          refine ih1.2 s.label c.label ?_
          intro hdp
          exact hdisj (deepPairF_first_mem hdp) hsl
        rw [h₂, h₁]
        exact hedge s (SubF.inRest hs) c hc
      have ih3 := buildEnv_main g step rest
        (buildEnv (buildEnv env (impl_from g cs)) (childCalls g r cs)) hrest hedgerest
      rw [impl_from_cons]
      constructor
      · intro s hs d q hq
        rw [buildEnv_append, buildEnv_append]
        cases hs with
        | here =>
            have hq' : pathForest? d cs = some q := by simpa using hq
            obtain ⟨c, hcmem, hcase⟩ := pathForest?_structure hq'
            rcases hcase with ⟨hq1, hcd⟩ | ⟨q', hq1, hqc, hdc⟩
            · have hdngd : d ∉ gdLabels cs := by
                rw [← hcd]
                exact top_not_gd hcs hcmem
              have h₃ : buildEnv (buildEnv (buildEnv env (impl_from g cs))
                    (childCalls g r cs)) (impl_from g rest) (Tree.node r cs).label d
                  = buildEnv (buildEnv env (impl_from g cs)) (childCalls g r cs) r d := by
                simp only [label_node]
                refine ih3.2 r d ?_
                intro hdp
                exact hrrest (deepPairF_first_mem hdp)
              have h₂ : buildEnv (buildEnv env (impl_from g cs)) (childCalls g r cs) r d
                  = buildEnv env (impl_from g cs) r d :=
                hcc.2 r d (Or.inr hdngd)
              have h₁ : buildEnv env (impl_from g cs) r d = env r d := by
                refine ih1.2 r d ?_
                intro hdp
                exact hrcs (deepPairF_first_mem hdp)
              have h₀ : env r d = step r d := by
                have := hedge (Tree.node r cs) SubF.here c hcmem
                rw [hcd] at this
                simpa using this
              rw [h₃, h₂, h₁, h₀, hq1]
              simp only [label_node]
              exact (chainStep_pair step r d).symm
            · have hdpost : d ∈ postLabels c.children := mem_postLabels.mpr hdc
              have h₃ : buildEnv (buildEnv (buildEnv env (impl_from g cs))
                    (childCalls g r cs)) (impl_from g rest) (Tree.node r cs).label d
                  = buildEnv (buildEnv env (impl_from g cs)) (childCalls g r cs) r d := by
                simp only [label_node]
                refine ih3.2 r d ?_
                intro hdp
                exact hrrest (deepPairF_first_mem hdp)
              have h₂ := hcc.1 c hcmem d hdpost
              have hic : buildEnv env (impl_from g cs) r c.label = env r c.label := by
                refine ih1.2 r c.label ?_
                intro hdp
                exact hrcs (deepPairF_first_mem hdp)
              have hstep : env r c.label = step r c.label := by
                have := hedge (Tree.node r cs) SubF.here c hcmem
                simpa using this
              have hchain : buildEnv env (impl_from g cs) c.label d
                  = chainStep step (c.label :: q') :=
                ih1.1 c (subf_of_mem hcmem) d q' hqc
              rw [h₃, h₂, hq1]
              simp only [label_node]
              rw [chainStep_cons]
              funext v
              rw [hic, hstep, hchain]
        | inChildren hs' =>
            have hchain := ih1.1 s hs' d q hq
            have hslcs : s.label ∈ forestLabels cs := subf_label_mem hs'
            have h₂ : buildEnv (buildEnv env (impl_from g cs)) (childCalls g r cs) s.label d
                = buildEnv env (impl_from g cs) s.label d := by
              refine hcc.2 s.label d (Or.inl ?_)
              intro he
              exact hrcs (by rw [← he]; exact hslcs)
            have h₃ : buildEnv (buildEnv (buildEnv env (impl_from g cs))
                  (childCalls g r cs)) (impl_from g rest) s.label d
                = buildEnv (buildEnv env (impl_from g cs)) (childCalls g r cs) s.label d := by
              refine ih3.2 s.label d ?_
              intro hdp
              exact hdisj hslcs (deepPairF_first_mem hdp)
            rw [h₃, h₂, hchain]
        | inRest hs' =>
            exact ih3.1 s hs' d q hq
      · intro t u hndp
        rw [deepPairF_cons] at hndp
        push_neg at hndp
        obtain ⟨hn1, hn2, hn3⟩ := hndp
        rw [buildEnv_append, buildEnv_append, ih3.2 t u hn3]
        have hcc2 : t ≠ r ∨ u ∉ gdLabels cs := by
          by_cases ht : t = r
          · exact Or.inr (fun hu => (hn1 ht) hu)
          · exact Or.inl ht
        rw [hcc.2 t u hcc2, ih1.2 t u hn2]

theorem ir_triple_indep {γ γ' α : Type} (g : γ) (g' : γ') (r c : α) (F : List (Tree α)) :
    (__impl_from_internals_recursive g r c F).map Impl.triple
      = (__impl_from_internals_recursive g' r c F).map Impl.triple := by
  rw [ir_eq_map, ir_eq_map]
  simp [Impl.triple, Function.comp]

theorem cc_triple_indep {γ γ' α : Type} (g : γ) (g' : γ') (r : α) : ∀ cs : List (Tree α),
    (childCalls g r cs).map Impl.triple = (childCalls g' r cs).map Impl.triple
  | [] => by simp
  | .node c gcs :: rest => by
      have ih := cc_triple_indep g g' r rest
      rw [childCalls_cons, childCalls_cons, List.map_append, List.map_append, ih,
        ir_triple_indep g g' r c gcs]

theorem impl_from_triple_indep {γ γ' α : Type} (g : γ) (g' : γ') : ∀ F : List (Tree α),
    (impl_from g F).map Impl.triple = (impl_from g' F).map Impl.triple
  | [] => by simp
  | .node r cs :: rest => by
      have ih1 := impl_from_triple_indep g g' cs
      have ih2 := impl_from_triple_indep g g' rest
      rw [impl_from_cons, impl_from_cons, List.map_append, List.map_append,
        List.map_append, List.map_append, ih1, ih2, cc_triple_indep g g' r cs]

theorem impl_from_generics_map {γ α : Type} (g : γ) (F : List (Tree α)) :
    impl_from g F
      = (impl_from g F).map (fun i => ⟨g, i.ancestor, i.intermediate, i.descendant⟩) := by
  have h : ∀ i ∈ impl_from g F,
      (fun (i : Impl γ α) => (⟨g, i.ancestor, i.intermediate, i.descendant⟩ : Impl γ α)) i
        = id i := by
    intro i hi
    simp only [id]
    rw [← generics_of_mem hi]
  rw [List.map_congr_left h, List.map_id]

theorem edgeF_lift_children {α : Type} {a : α} {cs rest : List (Tree α)} {p c : α}
    (h : EdgeF cs p c) : EdgeF (Tree.node a cs :: rest) p c := by
  obtain ⟨s, hs, hl, t, ht, hlt⟩ := h
  exact ⟨s, SubF.inChildren hs, hl, t, ht, hlt⟩

theorem edgeF_lift_rest {α : Type} {u : Tree α} {rest : List (Tree α)} {p c : α}
    (h : EdgeF rest p c) : EdgeF (u :: rest) p c := by
  obtain ⟨s, hs, hl, t, ht, hlt⟩ := h
  exact ⟨s, SubF.inRest hs, hl, t, ht, hlt⟩

theorem postLabels_cases {α : Type} {d : α} {F : List (Tree α)} (h : d ∈ postLabels F) :
    (∃ t ∈ F, t.label = d) ∨ ∃ t ∈ F, d ∈ forestLabels t.children := by
  obtain ⟨c, hc, hcase⟩ := mem_forestLabels_cases.mp (mem_postLabels.mp h)
  rcases hcase with h1 | h2
  · exact Or.inl ⟨c, hc, h1.symm⟩
  · exact Or.inr ⟨c, hc, h2⟩

theorem split_middle {β : Type} {X Y l₁ l₂ : List β} {i : β}
    (h : X ++ Y = l₁ ++ i :: l₂) :
    (∃ X₂, X = l₁ ++ i :: X₂ ∧ l₂ = X₂ ++ Y)
      ∨ (∃ Y₁, Y = Y₁ ++ i :: l₂ ∧ l₁ = X ++ Y₁) := by
  rcases List.append_eq_append_iff.mp h with ⟨a', ha1, ha2⟩ | ⟨c', hc1, hc2⟩
  · exact Or.inr ⟨a', ha2, ha1⟩
  · cases c' with
    | nil =>
        refine Or.inr ⟨[], ?_, ?_⟩
        · simpa using hc2.symm
        · simpa using hc1.symm
    | cons j c'' =>
        have hij : i = j ∧ l₂ = c'' ++ Y := by
          have := hc2
          rw [List.cons_append] at this
          exact ⟨List.head_eq_of_cons_eq this, List.tail_eq_of_cons_eq this⟩
        obtain ⟨hij1, hij2⟩ := hij
        refine Or.inl ⟨c'', ?_, hij2⟩
        rw [hc1, hij1]

theorem avail {γ α : Type} {g : γ} : ∀ {F : List (Tree α)} {l₁ : List (Impl γ α)}
    {i : Impl γ α} {l₂ : List (Impl γ α)},
    impl_from g F = l₁ ++ i :: l₂ →
    EdgeF F i.intermediate i.descendant ∨
      ∃ j ∈ l₁, j.ancestor = i.intermediate ∧ j.descendant = i.descendant
  | [], l₁, i, l₂, h => by
      rw [impl_from_nil] at h
      exact absurd h.symm (by simp)
  | .node r cs :: rest, l₁, i, l₂, h => by
      rw [impl_from_cons] at h
      rcases split_middle h with ⟨X₂, hX, hl2⟩ | ⟨Y₁, hY, hl1⟩
      · rcases split_middle hX with ⟨A₂, hA, hX2⟩ | ⟨B₁, hB, hl1'⟩
        · rcases avail hA with he | ⟨j, hj, hja, hjd⟩
          · exact Or.inl (edgeF_lift_children he)
          · exact Or.inr ⟨j, hj, hja, hjd⟩
        · have hiB : i ∈ childCalls g r cs := by
            rw [hB]
            exact List.mem_append.mpr (Or.inr (List.mem_cons_self _ _))
          obtain ⟨c, hc, d, hd, hi⟩ := mem_childCalls.mp hiB
          rcases postLabels_cases hd with ⟨t, ht, htl⟩ | ⟨t, ht, htd⟩
          · refine Or.inl ?_
            rw [hi]
            exact ⟨c, SubF.inChildren (subf_of_mem hc), rfl, t, ht, htl⟩
          · refine Or.inr ⟨⟨g, c.label, t.label, d⟩, ?_, ?_, ?_⟩
            · rw [hl1']
              refine List.mem_append.mpr (Or.inl ?_)
              exact mem_impl_from.mpr
                ⟨c, subf_of_mem hc, t, ht, d, mem_postLabels.mpr htd, rfl⟩
            · rw [hi]
            · rw [hi]
      · rcases avail hY with he | ⟨j, hj, hja, hjd⟩
        · exact Or.inl (edgeF_lift_rest he)
        · refine Or.inr ⟨j, ?_, hja, hjd⟩
          rw [hl1]
          exact List.mem_append.mpr (Or.inr hj)

theorem ordering_split {γ α : Type} (g : γ) : ∀ {F : List (Tree α)},
    (forestLabels F).Nodup → ∀ {p : α} {cs : List (Tree α)}, SubF (Tree.node p cs) F →
    ∀ {c : Tree α}, c ∈ cs →
    ∃ l₁ l₂, impl_from g F = l₁ ++ l₂ ∧ (∀ i ∈ l₁, i.ancestor ≠ p)
      ∧ (∀ i ∈ l₂, i.ancestor ≠ c.label)
  | [], _, p, cs, hs, c, hc => by cases hs
  | .node a cs₀ :: rest, hnd, p, cs, hs, c, hc => by
      rw [forestLabels_cons, List.nodup_cons, List.nodup_append] at hnd
      obtain ⟨ha, hcs₀, hrest, hdisj⟩ := hnd
      cases hs with
      | here =>
          refine ⟨impl_from g cs₀, childCalls g a cs₀ ++ impl_from g rest,
            by rw [impl_from_cons, List.append_assoc], ?_, ?_⟩
          · intro i hi he
            exact ha (List.mem_append.mpr (Or.inl (by rw [← he]; exact ancestor_mem hi)))
          · intro i hi he
            have hcl : c.label ∈ forestLabels cs₀ := child_label_mem hc
            rcases List.mem_append.mp hi with h1 | h2
            · have := ancestor_of_childCalls h1
              rw [he] at this
              exact ha (List.mem_append.mpr (Or.inl (by rw [← this]; exact hcl)))
            · have := ancestor_mem h2
              rw [he] at this
              exact hdisj hcl this
      | inChildren hs' =>
          obtain ⟨m₁, m₂, hsplit, hm1, hm2⟩ := ordering_split g hcs₀ hs' hc
          refine ⟨m₁, (m₂ ++ childCalls g a cs₀) ++ impl_from g rest,
            by rw [impl_from_cons, hsplit]; simp [List.append_assoc], hm1, ?_⟩
          intro i hi he
          have hcl : c.label ∈ forestLabels cs₀ :=
            subf_labels_sub hs' (by simpa using child_label_mem hc)
          rcases List.mem_append.mp hi with h1 | h2
          · rcases List.mem_append.mp h1 with h3 | h4
            · exact hm2 i h3 he
            · have := ancestor_of_childCalls h4
              rw [he] at this
              exact ha (List.mem_append.mpr (Or.inl (by rw [← this]; exact hcl)))
          · have := ancestor_mem h2
            rw [he] at this
            exact hdisj hcl this
      | inRest hs' =>
          obtain ⟨m₁, m₂, hsplit, hm1, hm2⟩ := ordering_split g hrest hs' hc
          have hp : p ∈ forestLabels rest := by simpa using subf_label_mem hs'
          refine ⟨(impl_from g cs₀ ++ childCalls g a cs₀) ++ m₁, m₂,
            by rw [impl_from_cons, hsplit]; simp [List.append_assoc], ?_, hm2⟩
          intro i hi he
          rcases List.mem_append.mp hi with h1 | h2
          · rcases List.mem_append.mp h1 with h3 | h4
            · have := ancestor_mem h3
              rw [he] at this
              exact hdisj this hp
            · have := ancestor_of_childCalls h4
              rw [he] at this
              exact ha (List.mem_append.mpr (Or.inr (by rw [← this]; exact hp)))
          · exact hm1 i h2 he

theorem subf_trans_child {α : Type} {s c : Tree α} : ∀ {F : List (Tree α)},
    SubF s F → c ∈ s.children → SubF c F
  | [], hs, _ => by cases hs
  | .node a cs :: rest, hs, hc => by
      cases hs with
      | here => exact SubF.inChildren (subf_of_mem (by simpa using hc))
      | inChildren hs' => exact SubF.inChildren (subf_trans_child hs' hc)
      | inRest hs' => exact SubF.inRest (subf_trans_child hs' hc)

theorem pathForest?_some_ne_nil {α : Type} [DecidableEq α] {d : α} {F : List (Tree α)}
    {q : List α} (h : pathForest? d F = some q) : q ≠ [] := by
  intro hq
  subst hq
  obtain ⟨c, -, hcase⟩ := pathForest?_structure h
  rcases hcase with ⟨h1, -⟩ | ⟨q', h1, -⟩ <;> cases h1

theorem exists_artifact {γ α : Type} [DecidableEq α] {g : γ} {F : List (Tree α)}
    {s : Tree α} (hs : SubF s F) {d : α} {n : Nat}
    (hd : distance? s d = some n) (h2 : 2 ≤ n) :
    ∃ i ∈ impl_from g F, i.ancestor = s.label ∧ i.descendant = d := by
  rw [distance?, Option.map_eq_some'] at hd
  obtain ⟨p, hp, hlen⟩ := hd
  cases s with
  | node a cs =>
      rcases pathTo?_inv hp with ⟨hda, hpa⟩ | ⟨hne, q, hpq, hq⟩
      · rw [hpa] at hlen
        simp at hlen
        omega
      · rw [hpq] at hlen
        simp at hlen
        obtain ⟨c, hcmem, hcase⟩ := pathForest?_structure hq
        rcases hcase with ⟨hq1, -⟩ | ⟨q', -, -, hdc⟩
        · rw [hq1] at hlen
          simp at hlen
          omega
        · refine ⟨⟨g, a, c.label, d⟩, ?_, by simp, by simp⟩
          exact mem_impl_from.mpr
            ⟨Tree.node a cs, hs, c, by simpa using hcmem, d, mem_postLabels.mpr hdc, by simp⟩

theorem impl_from_exForest_eq {γ : Type} (g : γ) :
    impl_from g exForest
      = [⟨g, "B", "F", "J"⟩, ⟨g, "B", "F", "K"⟩, ⟨g, "D", "I", "L"⟩,
        ⟨g, "A", "B", "E"⟩, ⟨g, "A", "B", "J"⟩, ⟨g, "A", "B", "K"⟩, ⟨g, "A", "B", "F"⟩,
        ⟨g, "A", "C", "G"⟩, ⟨g, "A", "D", "H"⟩, ⟨g, "A", "D", "L"⟩, ⟨g, "A", "D", "I"⟩] := by
  simp [exForest, impl_from, childCalls, __impl_from_internals_recursive,
    __impl_from_internals_make_impl]

theorem impl_from_chainForest_eq {γ : Type} (g : γ) :
    impl_from g chainForest = [⟨g, 1, 2, 3⟩, ⟨g, 0, 1, 3⟩, ⟨g, 0, 1, 2⟩] := by
  simp [chainForest, impl_from, childCalls, __impl_from_internals_recursive,
    __impl_from_internals_make_impl]

theorem forestLabels_exForest :
    forestLabels exForest = ["A", "B", "E", "F", "J", "K", "C", "G", "D", "H", "I", "L"] := by
  simp [exForest]

theorem nodup_exForest : (forestLabels exForest).Nodup := by
  rw [forestLabels_exForest]
  decide

theorem pathK_exTreeA : pathTo? "K" exTreeA = some ["A", "B", "F", "K"] := by
  simp [exTreeA, pathTo?, pathForest?]

theorem distanceK_exTreeA : distance? exTreeA "K" = some 3 := by
  rw [distance?, pathK_exTreeA]
  rfl

theorem distanceB_exTreeA : distance? exTreeA "B" = some 1 := by
  simp [distance?, exTreeA, pathTo?, pathForest?]

/-- C1: Completeness: for every declared tree and for every ordered pair
(ancestor, descendant) in which the descendant is a proper descendant of
the ancestor at tree-distance at least 2, expanding impl_from on that
tree produces a generated conversion from the type of the descendant to
the type of the ancestor (here even a directly emitted artifact for the
pair, which subsumes chained application). -/
theorem claim1_completeness {γ α : Type} [DecidableEq α] (g : γ) (F : List (Tree α))
    (s : Tree α) (hs : SubF s F) (d : α) (n : Nat)
    (hd : distance? s d = some n) (h2 : 2 ≤ n) :
    ∃ i ∈ impl_from g F, i.ancestor = s.label ∧ i.descendant = d :=
  exists_artifact hs hd h2

/-- Witness for C1 at the worked example: the pair (A, K) is at distance 3
and receives a generated artifact. -/
theorem claim1_completeness_witness :
    distance? exTreeA "K" = some 3
      ∧ ∃ i ∈ impl_from (0 : Nat) exForest, i.ancestor = "A" ∧ i.descendant = "K" :=
  ⟨distanceK_exTreeA,
    claim1_completeness (0 : Nat) exForest exTreeA SubF.here "K" 3 distanceK_exTreeA
      (by decide)⟩

/-- C2: Composition correctness: for every pair (ancestor, descendant) at
tree-distance at least 2 and every value of the descendant type, applying
the generated ancestor-from-descendant conversion (the environment built
by installing all emitted artifacts over the caller-supplied direct
conversions) yields the same result as chaining the direct conversions
edge by edge along the unique tree path from ancestor down to
descendant. -/
theorem claim2_composition {γ α V : Type} [DecidableEq α] (g : γ) (step : α → α → V → V)
    (F : List (Tree α)) (hnd : (forestLabels F).Nodup) (s : Tree α) (hs : SubF s F)
    (d : α) (p : List α) (hp : pathTo? d s = some p) (hlen : 3 ≤ p.length)
    (env₀ : α → α → V → V)
    (hedge : ∀ u, SubF u F → ∀ c ∈ u.children, env₀ u.label c.label = step u.label c.label)
    (v : V) :
    buildEnv env₀ (impl_from g F) s.label d v = chainStep step p v := by
  cases s with
  | node a cs =>
      rcases pathTo?_inv hp with ⟨hda, hpa⟩ | ⟨hne, q, hpq, hq⟩
      · rw [hpa] at hlen
        simp at hlen
      · have hmain := (buildEnv_main g step F env₀ hnd hedge).1 (Tree.node a cs) hs d q
          (by simpa using hq)
        rw [hpq]
        simp only [label_node] at hmain ⊢
        rw [hmain]

/-- Witness for C2 at the worked example, with the free tracing semantics:
converting a K value into A performs exactly the direct steps A-from-B,
B-from-F, F-from-K, i.e. equals A::from(B::from(F::from(K))). -/
theorem claim2_composition_witness :
    buildEnv (fun t s v => (t, s) :: v) (impl_from () exForest) "A" "K"
        ([] : List (String × String))
      = chainStep (fun t s v => (t, s) :: v) ["A", "B", "F", "K"] [] :=
  claim2_composition () (fun t s v => (t, s) :: v) exForest nodup_exForest exTreeA
    SubF.here "K" ["A", "B", "F", "K"] pathK_exTreeA (by decide)
    (fun t s v => (t, s) :: v) (fun _ _ _ _ => rfl) []

/-- Counterexample to C3 as stated: in the chain hierarchy 0-1-2-3 the
artifact for the pair (0, 3) is routed through 1, the immediate child of
the ancestor 0, although the immediate parent of the descendant 3 is 2. -/
theorem claim3_counterexample :
    impl_from (0 : Nat) chainForest
        = [⟨0, 1, 2, 3⟩, ⟨0, 0, 1, 3⟩, ⟨0, 0, 1, 2⟩]
      ∧ EdgeF chainForest 2 3 ∧ (1 : Nat) ≠ 2 := by
  refine ⟨impl_from_chainForest_eq 0, ?_, by decide⟩
  exact ⟨Tree.node 2 [Tree.node 3 []], SubF.inChildren (SubF.inChildren SubF.here),
    rfl, Tree.node 3 [], List.mem_cons_self _ _, rfl⟩

/-- C3 amended: every derived artifact for an (ancestor, descendant) pair
uses as its intermediate the immediate child of the ancestor on the path
toward the descendant (equal to the immediate parent of the descendant
only when the distance is exactly 2): the intermediate is a child of the
subtree rooted at the ancestor and the descendant lies strictly below
that child. -/
theorem claim3_amended {γ α : Type} (g : γ) (F : List (Tree α)) (i : Impl γ α)
    (hi : i ∈ impl_from g F) :
    ∃ s, SubF s F ∧ i.ancestor = s.label ∧ ∃ c ∈ s.children, i.intermediate = c.label
      ∧ i.descendant ∈ forestLabels c.children := by
  obtain ⟨s, hs, c, hc, d, hd, hieq⟩ := mem_impl_from.mp hi
  subst hieq
  exact ⟨s, hs, rfl, c, hc, rfl, mem_postLabels.mp hd⟩

/-- Witness for the amended C3: the worked-example artifact for (A, J) is
routed through B, the child of A on the path to J. -/
theorem claim3_amended_witness :
    ∃ s, SubF s exForest ∧ (⟨0, "A", "B", "J"⟩ : Impl Nat String).ancestor = s.label
      ∧ ∃ c ∈ s.children, (⟨0, "A", "B", "J"⟩ : Impl Nat String).intermediate = c.label
      ∧ (⟨0, "A", "B", "J"⟩ : Impl Nat String).descendant ∈ forestLabels c.children :=
  claim3_amended 0 exForest ⟨0, "A", "B", "J"⟩ (by rw [impl_from_exForest_eq]; decide)

/-- Counterexample to C4 as stated: in the worked example the only
artifact for the pair (A, J) is routed through B, not through F, and the
only artifact for (A, L) is routed through D, not through I. -/
theorem claim4_counterexample :
    ((impl_from (0 : Nat) exForest).filter
        (fun i => i.ancestor == "A" && i.descendant == "J")).map
          (fun i => i.intermediate) = ["B"]
      ∧ ((impl_from (0 : Nat) exForest).filter
          (fun i => i.ancestor == "A" && i.descendant == "L")).map
            (fun i => i.intermediate) = ["D"] := by
  rw [impl_from_exForest_eq]
  exact ⟨by decide, by decide⟩

/-- C4 amended: for the worked example tree the generator emits exactly
the triples (B,F,J), (B,F,K), (D,I,L), (A,B,E), (A,B,J), (A,B,K),
(A,B,F), (A,C,G), (A,D,H), (A,D,L), (A,D,I), in this order, where the
middle component names the intermediate: deep pairs are routed through
the immediate child of the ancestor, so (A,J) and (A,K) go via B and
(A,L) goes via D, while (B,J), (B,K), (D,L) go via F, F, I. -/
theorem claim4_amended {γ : Type} (g : γ) :
    impl_from g exForest
      = [⟨g, "B", "F", "J"⟩, ⟨g, "B", "F", "K"⟩, ⟨g, "D", "I", "L"⟩,
        ⟨g, "A", "B", "E"⟩, ⟨g, "A", "B", "J"⟩, ⟨g, "A", "B", "K"⟩, ⟨g, "A", "B", "F"⟩,
        ⟨g, "A", "C", "G"⟩, ⟨g, "A", "D", "H"⟩, ⟨g, "A", "D", "L"⟩, ⟨g, "A", "D", "I"⟩] :=
  impl_from_exForest_eq g

/-- C5: No-duplication: for every pair (parent, child) at tree-distance
exactly 1 in a declared tree with distinct labels, the generator never
emits a composed conversion for that pair: no artifact has that
(ancestor, descendant) pair. -/
theorem claim5_no_duplication {γ α : Type} [DecidableEq α] (g : γ) (F : List (Tree α))
    (hnd : (forestLabels F).Nodup) (s : Tree α) (hs : SubF s F) (d : α)
    (hd : distance? s d = some 1) :
    (s.label, d) ∉ pairsOf (impl_from g F) := by
  intro hmem
  simp only [pairsOf, List.mem_map] at hmem
  obtain ⟨i, hi, hpair⟩ := hmem
  obtain ⟨s', hs', c, hc, d', hd', hieq⟩ := mem_impl_from.mp hi
  have hanc : i.ancestor = s.label := congrArg Prod.fst hpair
  have hdesc : i.descendant = d := congrArg Prod.snd hpair
  have hs'label : s'.label = s.label := by rw [← hanc, hieq]
  have hss : s' = s := subf_unique hnd hs' hs hs'label
  subst hss
  have hd'd : d' = d := by rw [← hdesc, hieq]
  subst hd'd
  have hdgd : d' ∈ gdLabels s'.children := mem_gdLabels.mpr ⟨c, hc, hd'⟩
  have hndsub := subf_nodup hnd hs'
  rw [distance?, Option.map_eq_some'] at hd
  obtain ⟨p, hp, hlen⟩ := hd
  cases s' with
  | node a cs =>
      have hcs : (forestLabels cs).Nodup := by
        simpa using (List.nodup_cons.mp (by simpa using hndsub)).2
      rcases pathTo?_inv hp with ⟨hda, hpa⟩ | ⟨hne, q, hpq, hq⟩
      · rw [hpa] at hlen
        simp at hlen
      · rw [hpq] at hlen
        simp at hlen
        obtain ⟨c₀, hc₀, hcase⟩ := pathForest?_structure hq
        rcases hcase with ⟨hq1, hc₀d⟩ | ⟨q', hq1, hq'path, -⟩
        · have hnot := top_not_gd hcs hc₀
          rw [hc₀d] at hnot
          exact hnot (by simpa using hdgd)
        · rw [hq1] at hlen
          simp at hlen
          exact pathForest?_some_ne_nil hq'path hlen

/-- Witness for C5: in the worked example, (A, B) is a direct edge and
receives no generated artifact. -/
theorem claim5_no_duplication_witness :
    ("A", "B") ∉ pairsOf (impl_from (0 : Nat) exForest) :=
  claim5_no_duplication 0 exForest nodup_exForest exTreeA SubF.here "B" distanceB_exTreeA

/-- C6: Uniqueness and determinism: each (ancestor, descendant) pair at
distance at least 2 in a tree with distinct labels receives exactly one
generated artifact, and running generation twice on the same description
yields identical output (generation is a pure function of the
description). -/
theorem claim6_uniqueness {γ α : Type} [DecidableEq α] (g : γ) (F : List (Tree α))
    (hnd : (forestLabels F).Nodup) (s : Tree α) (hs : SubF s F) (d : α) (n : Nat)
    (hd : distance? s d = some n) (h2 : 2 ≤ n) :
    (∃ l₁ l₂, pairsOf (impl_from g F) = l₁ ++ (s.label, d) :: l₂
        ∧ (s.label, d) ∉ l₁ ∧ (s.label, d) ∉ l₂)
      ∧ impl_from g F = impl_from g F := by
  refine ⟨?_, rfl⟩
  have hex : ∃ i ∈ impl_from g F, i.ancestor = s.label ∧ i.descendant = d :=
    exists_artifact hs hd h2
  obtain ⟨i, hi, hanc, hdesc⟩ := hex
  have hmem : (s.label, d) ∈ pairsOf (impl_from g F) := by
    simp only [pairsOf, List.mem_map]
    exact ⟨i, hi, by rw [hanc, hdesc]⟩
  obtain ⟨l₁, l₂, hsplit⟩ := List.append_of_mem hmem
  have hnd' : (pairsOf (impl_from g F)).Nodup := pairs_nodup hnd
  rw [hsplit] at hnd'
  rw [List.nodup_append] at hnd'
  refine ⟨l₁, l₂, hsplit, ?_, ?_⟩
  · exact fun hm => hnd'.2.2 hm (List.mem_cons_self _ _)
  · exact (List.nodup_cons.mp hnd'.2.1).1

/-- Witness for C6: the pair (A, K) at distance 3 receives exactly one
artifact in the worked example. -/
theorem claim6_uniqueness_witness :
    (∃ l₁ l₂, pairsOf (impl_from (0 : Nat) exForest) = l₁ ++ ("A", "K") :: l₂
        ∧ ("A", "K") ∉ l₁ ∧ ("A", "K") ∉ l₂)
      ∧ impl_from (0 : Nat) exForest = impl_from (0 : Nat) exForest :=
  claim6_uniqueness 0 exForest nodup_exForest exTreeA SubF.here "K" 3 distanceK_exTreeA
    (by decide)

/-- C7: Binding uniformity: every generated artifact carries exactly the
binding set supplied at the top of the description, with no per-pair
specialization, narrowing, or renaming: replacing the binding set of
every artifact by the supplied one is the identity on the output. -/
theorem claim7_binding_uniformity {γ α : Type} (g : γ) (F : List (Tree α)) :
    impl_from g F
      = (impl_from g F).map (fun i => ⟨g, i.ancestor, i.intermediate, i.descendant⟩) :=
  impl_from_generics_map g F

/-- C8: Post-order generation: in a tree with distinct labels, for a node
P with child C, every artifact rooted at C is emitted before any artifact
rooted at P, and whenever an artifact rooted at P is emitted, the
conversion from its descendant to its intermediate already exists: it is
either a direct edge of the forest or an artifact emitted strictly
earlier in the output list. -/
theorem claim8_post_order {γ α : Type} (g : γ) (F : List (Tree α))
    (hnd : (forestLabels F).Nodup) (p : α) (cs : List (Tree α))
    (hp : SubF (Tree.node p cs) F) (c : Tree α) (hc : c ∈ cs) :
    (∃ l₁ l₂, impl_from g F = l₁ ++ l₂ ∧ (∀ i ∈ l₁, i.ancestor ≠ p)
        ∧ (∀ i ∈ l₂, i.ancestor ≠ c.label))
      ∧ ∀ l₁ (i : Impl γ α) l₂, impl_from g F = l₁ ++ i :: l₂ → i.ancestor = p →
          EdgeF F i.intermediate i.descendant
            ∨ ∃ j ∈ l₁, j.ancestor = i.intermediate ∧ j.descendant = i.descendant :=
  ⟨ordering_split g hnd hp hc, fun l₁ i l₂ h _ => avail h⟩

/-- Witness for C8 at the worked example with P the root A and C its
child B. -/
theorem claim8_post_order_witness :
    (∃ l₁ l₂, impl_from (0 : Nat) exForest = l₁ ++ l₂ ∧ (∀ i ∈ l₁, i.ancestor ≠ "A")
        ∧ (∀ i ∈ l₂, i.ancestor ≠ "B"))
      ∧ ∀ l₁ (i : Impl Nat String) l₂,
          impl_from (0 : Nat) exForest = l₁ ++ i :: l₂ → i.ancestor = "A" →
          EdgeF exForest i.intermediate i.descendant
            ∨ ∃ j ∈ l₁, j.ancestor = i.intermediate ∧ j.descendant = i.descendant :=
  claim8_post_order 0 exForest nodup_exForest "A"
    [Tree.node "B" [Tree.node "E" [], Tree.node "F" [Tree.node "J" [], Tree.node "K" []]],
     Tree.node "C" [Tree.node "G" []],
     Tree.node "D" [Tree.node "H" [], Tree.node "I" [Tree.node "L" []]]]
    SubF.here
    (Tree.node "B" [Tree.node "E" [], Tree.node "F" [Tree.node "J" [], Tree.node "K" []]])
    (List.mem_cons_self _ _)

/-- Counterexample to C9 as stated: an empty binding list is not rejected
and does not abort generation: expanding the worked example with the
empty binding list produces the full set of eleven artifacts. -/
theorem claim9_counterexample :
    impl_from ([] : List String) exForest ≠ []
      ∧ (impl_from ([] : List String) exForest).length = 11 := by
  rw [impl_from_exForest_eq ([] : List String)]
  exact ⟨by simp, by simp⟩

/-- C9 amended: an empty binding-list token is accepted, not a structural
malformation: generation runs to completion, emits exactly the same
(ancestor, intermediate, descendant) triples as with any other binding
set, and every emitted artifact carries the empty binding set. -/
theorem claim9_amended {γ γ' α : Type} (g : γ') (F : List (Tree α)) :
    (impl_from ([] : List γ) F).map Impl.triple = (impl_from g F).map Impl.triple
      ∧ impl_from ([] : List γ) F
          = (impl_from ([] : List γ) F).map
              (fun i => ⟨[], i.ancestor, i.intermediate, i.descendant⟩) :=
  ⟨impl_from_triple_indep [] g F, impl_from_generics_map [] F⟩

/-- C10: Implicit two-hop structure: every generated artifact converts in
exactly two invocations: the descendant converts to the intermediate,
which is the immediate child of the ancestor on the path (that first hop
being itself either a direct edge or a previously generated artifact for
the same source), and the intermediate converts to the ancestor by the
direct edge between them; no artifact encodes a longer chain, regardless
of the depth of the descendant. -/
theorem claim10_two_hop {γ α : Type} (g : γ) (F : List (Tree α)) (i : Impl γ α)
    (hi : i ∈ impl_from g F) :
    (∃ s, SubF s F ∧ i.ancestor = s.label ∧ ∃ c ∈ s.children, i.intermediate = c.label
        ∧ i.descendant ∈ forestLabels c.children)
      ∧ EdgeF F i.ancestor i.intermediate
      ∧ (EdgeF F i.intermediate i.descendant
          ∨ ∃ j ∈ impl_from g F, j.ancestor = i.intermediate
              ∧ j.descendant = i.descendant) := by
  obtain ⟨s, hs, c, hc, d, hd, hieq⟩ := mem_impl_from.mp hi
  subst hieq
  refine ⟨⟨s, hs, rfl, c, hc, rfl, mem_postLabels.mp hd⟩, ⟨s, hs, rfl, c, hc, rfl⟩, ?_⟩
  rcases postLabels_cases hd with ⟨t, ht, htl⟩ | ⟨t, ht, htd⟩
  · exact Or.inl ⟨c, subf_trans_child hs hc, rfl, t, ht, htl⟩
  · refine Or.inr ⟨⟨g, c.label, t.label, d⟩, ?_, rfl, rfl⟩
    exact mem_impl_from.mpr ⟨c, subf_trans_child hs hc, t, ht, d, mem_postLabels.mpr htd, rfl⟩

/-- Witness for C10 at the worked-example artifact for (A, L): it is the
two-hop composition through D, the child of A, with the (D, L) hop
available as a direct edge or an earlier generated artifact. -/
theorem claim10_two_hop_witness :
    (∃ s, SubF s exForest ∧ (⟨0, "A", "D", "L"⟩ : Impl Nat String).ancestor = s.label
        ∧ ∃ c ∈ s.children, (⟨0, "A", "D", "L"⟩ : Impl Nat String).intermediate = c.label
        ∧ (⟨0, "A", "D", "L"⟩ : Impl Nat String).descendant ∈ forestLabels c.children)
      ∧ EdgeF exForest "A" "D"
      ∧ (EdgeF exForest "D" "L"
          ∨ ∃ j ∈ impl_from (0 : Nat) exForest, j.ancestor = "D" ∧ j.descendant = "L") :=
  claim10_two_hop 0 exForest ⟨0, "A", "D", "L"⟩ (by rw [impl_from_exForest_eq]; decide)

end GTF
